import Mathlib

/-!
Verification of the execution engine of the ai-agent-template repository.

Two components are embedded from the Python source:

* the step interpreter: the chain-execution loop of `execute_plan` in
  `src/utils/plan_executor.py` (lines 44-71), together with the math
  capabilities from `src/tools/math_tools.py`;
* the dependency-graph scheduler: the wavefront loop of
  `execute_dynamic_task` in `src/flyte_dynamic.py` (lines 87-201).

External effects (the LLM call that produces a plan, the agent invocations,
logging) are modelled as parameters; everything else is translated directly
from the source.
-/

/-! ## Python-value model for the step interpreter

Arguments in a parsed plan are JSON values.  The claims under study only
involve `None`, integers and strings, so those are the modelled carriers.
-/

inductive PyVal where
  | vnone : PyVal
  | vint : Int → PyVal
  | vstr : String → PyVal
  deriving DecidableEq, Repr

/-- Python `str(...)` on a modelled value. -/
def pyStr : PyVal → String
  | .vnone => "None"
  | .vint n => toString n
  | .vstr s => s

/-- One entry of the parsed plan: `{"tool": ..., "args": [...], "reasoning": ...}`. -/
structure Operation where
  tool : String
  args : List PyVal
  reasoning : String
  deriving DecidableEq, Repr

/-- One entry appended to `steps_log` by the interpreter loop. -/
structure ChainEntry where
  tool : String
  args : List PyVal
  result : PyVal
  reasoning : String
  deriving DecidableEq, Repr

/-- Result of the interpreter loop: either
`{"final_result": last_result, "steps": steps_log}` or
`{"error": str(e), "steps": steps_log}`. -/
inductive ChainResult where
  | ok : PyVal → List ChainEntry → ChainResult
  | err : String → List ChainEntry → ChainResult
  deriving DecidableEq, Repr

/-- A capability table: operation name to callable; the callable may raise,
modelled as `Except` with the exception message. -/
def Toolset : Type := String → Option (List PyVal → Except String PyVal)

/-- ASCII lowercasing of one character, as Python `str.lower` acts on the
ASCII range (the only range exercised here). -/
def lowerChar (c : Char) : Char :=
  if 65 ≤ c.toNat ∧ c.toNat ≤ 90 then Char.ofNat (c.toNat + 32) else c

/-- Python `str.lower()` on the modelled (ASCII) strings. -/
def strLower (s : String) : String :=
  String.mk (s.data.map lowerChar)

/-- Argument resolution, from `plan_executor.py` line 55:
`args = [last_result if str(a).lower() == "previous" else a for a in args]`. -/
def resolveArgs (last : PyVal) (args : List PyVal) : List PyVal :=
  args.map (fun a => if strLower (pyStr a) == "previous" then last else a)

/-- The chain-execution loop of `execute_plan` (`plan_executor.py` lines 44-71).
`last` starts as `None` and `log` as the empty `steps_log`; on an unknown tool
the loop raises `ValueError("Unknown tool: ...")`, which the surrounding
`try/except` turns into an error result carrying the log so far. -/
def execute_plan (toolset : Toolset) :
    List Operation → PyVal → List ChainEntry → ChainResult
  | [], last, log => .ok last log
  | op :: rest, last, log =>
    let resolved := resolveArgs last op.args
    match toolset op.tool with
    | none => .err ("Unknown tool: " ++ op.tool) log
    | some f =>
      match f resolved with
      | .error e => .err e log
      | .ok r =>
        execute_plan toolset rest r (log ++ [⟨op.tool, resolved, r, op.reasoning⟩])

/-! ### Math capabilities (`src/tools/math_tools.py`) -/

/-- Python string repetition `s * k` (empty for non-positive `k`). -/
def strRepeat (s : String) (k : Int) : String :=
  String.join (List.replicate k.toNat s)

/-- `add(a, b) = a + b` with Python `+` semantics on the modelled carriers. -/
def pyAdd : List PyVal → Except String PyVal
  | [.vint a, .vint b] => .ok (.vint (a + b))
  | [.vstr a, .vstr b] => .ok (.vstr (a ++ b))
  | _ => .error "TypeError: unsupported operand type(s) for +"

/-- `multiply(a, b) = a * b` with Python `*` semantics on the modelled carriers. -/
def pyMultiply : List PyVal → Except String PyVal
  | [.vint a, .vint b] => .ok (.vint (a * b))
  | [.vstr s, .vint k] => .ok (.vstr (strRepeat s k))
  | [.vint k, .vstr s] => .ok (.vstr (strRepeat s k))
  | _ => .error "TypeError: unsupported operand type(s) for *"

/-- `power(a, b) = a ** b`; a negative exponent would produce a Python float,
outside the modelled carriers, so it is mapped to an invocation fault. -/
def pyPower : List PyVal → Except String PyVal
  | [.vint a, .vint b] =>
    if 0 ≤ b then .ok (.vint (a ^ b.toNat))
    else .error "fractional result outside modelled values"
  | _ => .error "TypeError: unsupported operand type(s) for **"

/-- The math agent's registry: `add`, `multiply`, `power`. -/
def mathToolset : Toolset := fun name =>
  if name = "add" then some pyAdd
  else if name = "multiply" then some pyMultiply
  else if name = "power" then some pyPower
  else none

/-! ### Basic interpreter facts -/

/-- If the loop succeeds, the final value is the result of the last log entry
(or the running value the loop started from, when nothing was appended). -/
theorem exec_ok_final (ts : Toolset) (ops : List Operation) (last : PyVal)
    (log : List ChainEntry) (v : PyVal) (l : List ChainEntry)
    (hinv : last = ((log.map ChainEntry.result).getLastD PyVal.vnone))
    (h : execute_plan ts ops last log = .ok v l) :
    v = (l.map ChainEntry.result).getLastD PyVal.vnone := by
  induction ops generalizing last log with
  | nil =>
    simp only [execute_plan] at h
    cases h
    exact hinv
  | cons op rest ih =>
    simp only [execute_plan] at h
    split at h
    · cases h
    · split at h
      · cases h
      · exact ih _ _ (by simp) h

/-- On an error the log returned extends the incoming log. -/
theorem exec_err_log (ts : Toolset) (ops : List Operation) (last : PyVal)
    (log : List ChainEntry) (e : String) (l : List ChainEntry)
    (h : execute_plan ts ops last log = .err e l) : ∃ t, l = log ++ t := by
  induction ops generalizing last log with
  | nil =>
    simp only [execute_plan] at h
    cases h
  | cons op rest ih =>
    simp only [execute_plan] at h
    split at h
    · cases h
      exact ⟨[], by simp⟩
    · split at h
      · cases h
        exact ⟨[], by simp⟩
      · obtain ⟨t, ht⟩ := ih _ _ h
        exact ⟨_ :: t, by simpa using ht⟩

/-! ### Interpreter claims -/

/-- Concrete chains used as witnesses and counterexamples. -/
def chainAddMul : List Operation :=
  [⟨"add", [.vint 2, .vint 3], ""⟩, ⟨"multiply", [.vstr "previous", .vint 5], ""⟩]

def chainUnknownSecond : List Operation :=
  [⟨"add", [.vint 2, .vint 3], ""⟩, ⟨"divide", [.vstr "previous", .vint 2], ""⟩]

def chainAfterFailure : List Operation :=
  [⟨"multiply", [.vstr "previous", .vint 2], ""⟩]

def chainCasedToken : List Operation :=
  [⟨"add", [.vint 2, .vint 3], ""⟩, ⟨"add", [.vstr "Previous", .vint 1], ""⟩]

/-- C10: the empty operation chain succeeds with `None` as final output, an
empty ChainLog, and no capability invoked (the result does not depend on the
capability table at all). -/
theorem claim_C10_empty_chain : ∀ ts : Toolset,
    execute_plan ts [] PyVal.vnone [] = ChainResult.ok PyVal.vnone [] :=
  fun _ => rfl

/-- C6: when some operation of a chain fails (unknown name or a capability
fault), the interpreter halts there: appending further operations after the
failing chain changes nothing, and the error result carries exactly the
ChainLog accumulated before the failure (the incoming log is never discarded). -/
theorem claim_C6_halt_on_failure (ts : Toolset) (ops1 ops2 : List Operation)
    (last : PyVal) (log : List ChainEntry) (e : String) (l : List ChainEntry)
    (h : execute_plan ts ops1 last log = .err e l) :
    execute_plan ts (ops1 ++ ops2) last log = .err e l ∧ ∃ t, l = log ++ t := by
  refine ⟨?_, exec_err_log ts ops1 last log e l h⟩
  induction ops1 generalizing last log with
  | nil =>
    simp only [execute_plan] at h
    cases h
  | cons op rest ih =>
    simp only [execute_plan] at h ⊢
    split at h
    · cases h
      rfl
    · split at h
      · cases h
        rfl
      · exact ih _ _ h

/-- C6 witness: a chain whose second operation is unknown, followed by one more
operation, fails with the unknown-operation error and exactly one successful
log entry; the appended operation is never invoked. -/
theorem claim_C6_witness :
    execute_plan mathToolset (chainUnknownSecond ++ chainAfterFailure) PyVal.vnone []
      = ChainResult.err "Unknown tool: divide"
          [⟨"add", [.vint 2, .vint 3], .vint 5, ""⟩]
    ∧ ∃ t, [ChainEntry.mk "add" [.vint 2, .vint 3] (.vint 5) ""] = [] ++ t :=
  claim_C6_halt_on_failure mathToolset chainUnknownSecond chainAfterFailure
    PyVal.vnone [] _ _ (by decide)

/-- C7: the chain `[add(2,3), multiply("previous",5)]` over the math capability
table succeeds with final output `25` and a two-entry ChainLog whose resolved
args are `[2,3]` then `[5,5]`; in general a successful run returns the last
log entry's result as the final output. -/
theorem claim_C7_round_trip :
    execute_plan mathToolset chainAddMul PyVal.vnone []
      = ChainResult.ok (PyVal.vint 25)
          [⟨"add", [.vint 2, .vint 3], .vint 5, ""⟩,
           ⟨"multiply", [.vint 5, .vint 5], .vint 25, ""⟩]
    ∧ ∀ (ts : Toolset) (ops : List Operation) (v : PyVal) (l : List ChainEntry),
        execute_plan ts ops PyVal.vnone [] = ChainResult.ok v l →
        v = (l.map ChainEntry.result).getLastD PyVal.vnone := by
  constructor
  · decide
  · intro ts ops v l h
    exact exec_ok_final ts ops PyVal.vnone [] v l rfl h

/-- C7 witness: the general final-output law applied to the concrete round
trip chain. -/
theorem claim_C7_witness :
    PyVal.vint 25
      = (([⟨"add", [.vint 2, .vint 3], .vint 5, ""⟩,
           ⟨"multiply", [.vint 5, .vint 5], .vint 25, ""⟩] : List ChainEntry).map
          ChainEntry.result).getLastD PyVal.vnone :=
  claim_C7_round_trip.2 mathToolset chainAddMul _ _ (by decide)

/-- C4 counterexample: the placeholder test is case-insensitive.  In the chain
`[add(2,3), add("Previous",1)]` the differently-cased argument `"Previous"` is
NOT passed literally: it is substituted by the previous result `5`, so the
chain succeeds with `6` and the second entry's resolved args are `[5, 1]`. -/
theorem claim_C4_counterexample :
    execute_plan mathToolset chainCasedToken PyVal.vnone []
      = ChainResult.ok (PyVal.vint 6)
          [⟨"add", [.vint 2, .vint 3], .vint 5, ""⟩,
           ⟨"add", [.vint 5, .vint 1], .vint 6, ""⟩]
    ∧ resolveArgs (PyVal.vint 5) [PyVal.vstr "Previous", PyVal.vint 1]
        ≠ [PyVal.vstr "Previous", PyVal.vint 1] := by
  decide

/-- C4 amended: an argument is substituted by `last_result` if and only if its
Python string rendering, lowercased, equals the reserved token `"previous"`;
every argument whose lowercased rendering differs from the token is passed
through literally. -/
theorem claim_C4_amended (last : PyVal) (args : List PyVal) :
    resolveArgs last args
      = args.map (fun a => if strLower (pyStr a) = "previous" then last else a)
    ∧ ∀ a ∈ args,
        (strLower (pyStr a) ≠ "previous" → resolveArgs last [a] = [a])
        ∧ (strLower (pyStr a) = "previous" → resolveArgs last [a] = [last]) := by
  constructor
  · simp only [resolveArgs]
    refine List.map_congr_left ?_
    intro a _
    by_cases hc : strLower (pyStr a) = "previous"
    · simp [hc]
    · simp [hc]
  · intro a _
    refine ⟨fun hne => ?_, fun heq => ?_⟩
    · simp [resolveArgs, hne]
    · simp [resolveArgs, heq]

/-- C4 amended witness: an upper-cased variant of the token is substituted. -/
theorem claim_C4_amended_witness :
    resolveArgs (PyVal.vint 7) [PyVal.vstr "PREVIOUS"] = [PyVal.vint 7] :=
  ((claim_C4_amended (PyVal.vint 7) [PyVal.vstr "PREVIOUS"]).2
    (PyVal.vstr "PREVIOUS") (by simp)).2 (by decide)

/-! ## Dependency-graph scheduler (`src/flyte_dynamic.py`)

The orchestration loop of `execute_dynamic_task` (lines 87-201).  A plan step
and an execution record translate the `AgentStep` and `AgentExecution`
dataclasses.  The five specialist agent tasks are external collaborators; a
`Behav` parameter maps a known agent name and the dispatched task text to the
`(final_result, error)` pair that agent returns.  A run that raises an
uncaught exception (the `KeyError` reached after the loop breaks on an
unresolvable graph) is modelled as `none`.
-/

structure AgentStep where
  agent : String
  task : String
  dependencies : List Nat
  deriving DecidableEq, Repr

structure AgentExecution where
  agent : String
  task : String
  result_summary : String
  error : String
  deriving DecidableEq, Repr

structure TaskResult where
  planner_decision_summary : String
  agent_executions : List AgentExecution
  final_result : String
  deriving DecidableEq, Repr

/-- Joint behaviour of the specialist agent tasks: agent name and dispatched
task text to `(final_result, error)`. -/
def Behav : Type := String → String → String × String

/-- Python `dict` lookup on the modelled `completed_results` table. -/
def lookupK {α : Type} : List (Nat × α) → Nat → Option α
  | [], _ => none
  | (k, v) :: rest, i => if k = i then some v else lookupK rest i

/-- The keys of an association table. -/
def keysOf {α : Type} (l : List (Nat × α)) : List Nat := l.map Prod.fst

/-- `all(dep_idx in completed_results for dep_idx in step.dependencies)`
(line 101). -/
def depsSatisfied (completed : List (Nat × AgentExecution)) (step : AgentStep) : Bool :=
  step.dependencies.all (fun d => (lookupK completed d).isSome)

/-- `f"Step {dep_idx} ({dep_exec.agent}): {dep_exec.result_summary}"`
(line 127).  The loop only renders dependencies that are present in
`completed_results`, so the default record is never consulted there. -/
def renderDep (completed : List (Nat × AgentExecution)) (d : Nat) : String :=
  let e := (lookupK completed d).getD ⟨"", "", "", ""⟩
  "Step " ++ toString d ++ " (" ++ e.agent ++ "): " ++ e.result_summary

/-- The effective task of a step (lines 121-131): the original task when the
dependency list is empty, otherwise the dependency renderings in the order the
dependencies are listed, under the context header. -/
def effectiveTask (completed : List (Nat × AgentExecution)) (step : AgentStep) : String :=
  if step.dependencies.isEmpty then step.task
  else
    "Context from previous steps:\n"
      ++ String.intercalate "\n" (step.dependencies.map (renderDep completed))
      ++ "\n\nYour task: " ++ step.task

/-- The agent names with a dispatch branch (lines 134-153). -/
def knownAgents : List String := ["math", "string", "web_search", "code", "weather"]

/-- `execute_step` (lines 116-167): dispatch the effective task to the named
agent, or record the unknown-agent error; the record keeps the original task. -/
def executeStep (behav : Behav) (completed : List (Nat × AgentExecution))
    (step : AgentStep) : AgentExecution :=
  let task := effectiveTask completed step
  let out :=
    if step.agent ∈ knownAgents then behav step.agent task
    else ("", "Unknown agent: " ++ step.agent)
  ⟨step.agent, step.task, out.1, out.2⟩

/-- Python `enumerate` over the plan steps (line 92). -/
def enumSteps (k : Nat) : List AgentStep → List (Nat × AgentStep)
  | [] => []
  | s :: rest => (k, s) :: enumSteps (k + 1) rest

/-- Helper for the termination of the wavefront loop. -/
theorem length_filter_not_lt {α : Type} (p : α → Bool) (l : List α)
    (h : l.filter p ≠ []) :
    (l.filter (fun a => !(p a))).length < l.length := by
  induction l with
  | nil => simp at h
  | cons a t ih =>
    by_cases hp : p a
    · simp only [List.filter_cons, hp, Bool.not_true, List.length_cons]
      exact Nat.lt_succ_of_le (List.length_filter_le _ _)
    · simp only [Bool.not_eq_true] at hp
      simp only [List.filter_cons, hp, Bool.not_false, List.length_cons]
      have ht : t.filter p ≠ [] := by
        intro hemp
        apply h
        simp [List.filter_cons, hp, hemp]
      exact Nat.succ_lt_succ (ih ht)

/-- The `ready_steps` of one wave (lines 96-106): the pending steps whose
dependencies are all completed. -/
def readyOf (completed : List (Nat × AgentExecution))
    (pending : List (Nat × AgentStep)) : List (Nat × AgentStep) :=
  pending.filter (fun p => depsSatisfied completed p.2)

/-- The `remaining_steps` of one wave (lines 96-106). -/
def remainingOf (completed : List (Nat × AgentExecution))
    (pending : List (Nat × AgentStep)) : List (Nat × AgentStep) :=
  pending.filter (fun p => !(depsSatisfied completed p.2))

/-- The records produced by one wave (lines 170-174): every ready step is run
against the completed table as it stood at the start of the wave. -/
def waveRecords (behav : Behav) (completed : List (Nat × AgentExecution))
    (ready : List (Nat × AgentStep)) : List (Nat × AgentExecution) :=
  ready.map (fun p => (p.1, executeStep behav completed p.2))

/-- The wavefront loop (lines 94-177).  One iteration splits `pending` into
the ready steps (all dependencies completed) and the rest, in one pass over
`pending`; if nothing is ready it breaks (returning the table built so far),
otherwise it runs every ready step against the completed table of the wave
start, folds the results in, and continues.  The second component is the
trace: the list of ready step ids of each dispatching wave. -/
def schedLoop (behav : Behav) (pending : List (Nat × AgentStep))
    (completed : List (Nat × AgentExecution)) :
    List (Nat × AgentExecution) × List (List Nat) :=
  if h : readyOf completed pending = [] then (completed, [])
  else
    let r := schedLoop behav (remainingOf completed pending)
      (completed ++ waveRecords behav completed (readyOf completed pending))
    (r.1, keysOf (readyOf completed pending) :: r.2)
termination_by pending.length
decreasing_by exact length_filter_not_lt _ _ h

/-- `[completed_results[i] for i in range(n)]` (line 180): `none` when some
index is missing (the Python comprehension raises `KeyError`). -/
def collectRecords (completed : List (Nat × AgentExecution)) :
    List Nat → Option (List AgentExecution)
  | [] => some []
  | i :: rest =>
    match lookupK completed i, collectRecords completed rest with
    | some e, some l => some (e :: l)
    | _, _ => none

/-- The planner-decision summary string (lines 193-195). -/
def plannerSummary (steps : List AgentStep) : String :=
  toString steps.length ++ " step(s): "
    ++ String.intercalate ", " (steps.map (fun s => s.agent))

/-- The qualifying result lines (lines 183-186): records with a non-empty
(truthy) `result_summary` and a falsy `error`. -/
def finalResultsOf (recs : List AgentExecution) : List String :=
  (recs.filter (fun e => !(e.result_summary == "") && (e.error == ""))).map
    (fun e => e.agent ++ ": " ++ e.result_summary)

/-- `" | ".join(final_results) if final_results else "No results"` (line 189). -/
def combineResults (recs : List AgentExecution) : String :=
  let fr := finalResultsOf recs
  if fr.isEmpty then "No results" else String.intercalate " | " fr

/-- `execute_dynamic_task` (lines 87-201), downstream of the planner: run the
wavefront loop from the enumerated plan, then aggregate.  `none` models the
run dying on the unresolvable-graph path. -/
def execute_dynamic_task (behav : Behav) (steps : List AgentStep) : Option TaskResult :=
  let run := schedLoop behav (enumSteps 0 steps) []
  match collectRecords run.1 (List.range steps.length) with
  | none => none
  | some recs => some ⟨plannerSummary steps, recs, combineResults recs⟩

/-- The number of waves a plan is executed in. -/
def schedWaves (behav : Behav) (steps : List AgentStep) : Nat :=
  (schedLoop behav (enumSteps 0 steps) []).2.length

/-! ### Association-table and enumeration lemmas -/

theorem lookupK_isSome_iff {α : Type} (l : List (Nat × α)) (i : Nat) :
    (lookupK l i).isSome = true ↔ i ∈ keysOf l := by
  induction l with
  | nil => simp [lookupK, keysOf]
  | cons p rest ih =>
    obtain ⟨k, v⟩ := p
    by_cases hk : k = i
    · subst hk
      simp [lookupK, keysOf]
    · simp [lookupK, hk, keysOf, ih]
      intro he
      exact absurd he.symm hk

theorem lookupK_eq_none_iff {α : Type} (l : List (Nat × α)) (i : Nat) :
    lookupK l i = none ↔ i ∉ keysOf l := by
  rw [← lookupK_isSome_iff]
  cases lookupK l i <;> simp

theorem lookupK_mem {α : Type} (l : List (Nat × α)) (i : Nat) (e : α)
    (h : lookupK l i = some e) : (i, e) ∈ l := by
  induction l with
  | nil => simp [lookupK] at h
  | cons p rest ih =>
    obtain ⟨k, v⟩ := p
    by_cases hk : k = i
    · subst hk
      simp [lookupK] at h
      simp [h]
    · simp [lookupK, hk] at h
      simp [ih h]

theorem lookupK_append_left {α : Type} (a b : List (Nat × α)) (i : Nat) (e : α)
    (h : lookupK a i = some e) : lookupK (a ++ b) i = some e := by
  induction a with
  | nil => simp [lookupK] at h
  | cons p rest ih =>
    obtain ⟨k, v⟩ := p
    by_cases hk : k = i
    · subst hk
      simp [lookupK] at h ⊢
      exact h
    · simp [lookupK, hk] at h ⊢
      exact ih h

theorem lookupK_append_right {α : Type} (a b : List (Nat × α)) (i : Nat)
    (h : lookupK a i = none) : lookupK (a ++ b) i = lookupK b i := by
  induction a with
  | nil => simp
  | cons p rest ih =>
    obtain ⟨k, v⟩ := p
    by_cases hk : k = i
    · subst hk
      simp [lookupK] at h
    · simp [lookupK, hk] at h ⊢
      exact ih h

theorem keysOf_append {α : Type} (a b : List (Nat × α)) :
    keysOf (a ++ b) = keysOf a ++ keysOf b := by
  simp [keysOf]

theorem keysOf_waveRecords (behav : Behav) (C : List (Nat × AgentExecution))
    (l : List (Nat × AgentStep)) :
    keysOf (waveRecords behav C l) = keysOf l := by
  simp [keysOf, waveRecords]

theorem mem_keysOf_filter {α : Type} (f : Nat × α → Bool) (l : List (Nat × α))
    (i : Nat) (h : i ∈ keysOf (l.filter f)) : i ∈ keysOf l := by
  simp only [keysOf, List.mem_map] at h ⊢
  obtain ⟨p, hp, rfl⟩ := h
  exact ⟨p, List.mem_of_mem_filter hp, rfl⟩

theorem nodup_keys_eq {α : Type} (l : List (Nat × α)) (hnd : (keysOf l).Nodup)
    (p q : Nat × α) (hp : p ∈ l) (hq : q ∈ l) (hfst : p.1 = q.1) : p = q :=
  List.inj_on_of_nodup_map hnd hp hq hfst

theorem mem_enumSteps (k i : Nat) (s : AgentStep) (l : List AgentStep) :
    (i, s) ∈ enumSteps k l ↔ k ≤ i ∧ l[i - k]? = some s := by
  induction l generalizing k with
  | nil => simp [enumSteps]
  | cons a t ih =>
    simp only [enumSteps, List.mem_cons, Prod.mk.injEq, ih]
    constructor
    · rintro (⟨rfl, rfl⟩ | ⟨hk, hget⟩)
      · simp
      · refine ⟨by omega, ?_⟩
        have : i - k = (i - (k + 1)) + 1 := by omega
        rw [this, List.getElem?_cons_succ]
        exact hget
    · rintro ⟨hk, hget⟩
      by_cases hik : i = k
      · subst hik
        simp at hget
        exact Or.inl ⟨rfl, hget.symm⟩
      · right
        refine ⟨by omega, ?_⟩
        have : i - k = (i - (k + 1)) + 1 := by omega
        rw [this, List.getElem?_cons_succ] at hget
        exact hget

theorem keysOf_enumSteps (k : Nat) (l : List AgentStep) :
    keysOf (enumSteps k l) = List.range' k l.length := by
  induction l generalizing k with
  | nil => simp [enumSteps, keysOf]
  | cons a t ih => simp [enumSteps, keysOf, List.range'] at ih ⊢; exact ih (k+1)

theorem mem_keysOf_enumSteps (i : Nat) (l : List AgentStep) :
    i ∈ keysOf (enumSteps 0 l) ↔ i < l.length := by
  rw [keysOf_enumSteps]
  simp [List.mem_range']

theorem enumSteps_functional (i : Nat) (s s' : AgentStep) (l : List AgentStep)
    (h : (i, s) ∈ enumSteps 0 l) (h' : (i, s') ∈ enumSteps 0 l) : s = s' := by
  rw [mem_enumSteps] at h h'
  have h1 := h.2
  have h2 := h'.2
  rw [h1] at h2
  exact Option.some.inj h2

/-! ### Trace index helpers -/

theorem mem_getD_flatten (l : List (List Nat)) (w i : Nat)
    (h : i ∈ l.getD w []) : i ∈ l.flatten := by
  induction l generalizing w with
  | nil => simp at h
  | cons wv rest ih =>
    cases w with
    | zero => simp at h; simp [List.mem_flatten]; exact Or.inl h
    | succ w =>
      simp only [List.getD_cons_succ] at h
      simp only [List.flatten_cons, List.mem_append]
      exact Or.inr (ih w h)

theorem mem_flatten_take (l : List (List Nat)) (w i : Nat)
    (h : i ∈ (l.take w).flatten) : i ∈ l.flatten := by
  have hsplit : l.flatten = (l.take w).flatten ++ (l.drop w).flatten := by
    rw [← List.flatten_append, List.take_append_drop]
  rw [hsplit]
  exact List.mem_append_left _ h

theorem mem_flatten_take_succ (l : List (List Nat)) (w i : Nat)
    (h : i ∈ (l.take (w + 1)).flatten) :
    i ∈ (l.take w).flatten ∨ i ∈ l.getD w [] := by
  rw [List.take_succ, List.flatten_append, List.mem_append] at h
  rcases h with h | h
  · exact Or.inl h
  · right
    cases hg : l[w]? with
    | none => rw [hg] at h; simp at h
    | some wv =>
      rw [hg] at h
      simp at h
      have : l.getD w [] = wv := by
        rw [List.getD_eq_getElem?_getD, hg]
        rfl
      rw [this]
      exact h

/-- The first wave of a trace containing a given id. -/
def waveIdx : List (List Nat) → Nat → Nat
  | [], _ => 0
  | wv :: rest, i => if i ∈ wv then 0 else waveIdx rest i + 1

theorem waveIdx_mem (l : List (List Nat)) (i : Nat) (h : i ∈ l.flatten) :
    i ∈ l.getD (waveIdx l i) [] ∧ waveIdx l i < l.length := by
  induction l with
  | nil => simp at h
  | cons wv rest ih =>
    by_cases hw : i ∈ wv
    · simp [waveIdx, hw]
    · simp only [List.flatten_cons, List.mem_append] at h
      rcases h with h | h
      · exact absurd h hw
      · obtain ⟨h1, h2⟩ := ih h
        refine ⟨?_, ?_⟩
        · simp only [waveIdx, if_neg hw, List.getD_cons_succ]
          exact h1
        · simp only [waveIdx, if_neg hw, List.length_cons]
          omega

theorem waveIdx_take_lt (l : List (List Nat)) (w i : Nat)
    (h : i ∈ (l.take w).flatten) : waveIdx l i < w := by
  induction l generalizing w with
  | nil => simp at h
  | cons wv rest ih =>
    cases w with
    | zero => simp at h
    | succ w =>
      simp only [List.take_succ_cons, List.flatten_cons, List.mem_append] at h
      by_cases hw : i ∈ wv
      · simp [waveIdx, hw]
      · rcases h with h | h
        · exact absurd h hw
        · simp only [waveIdx, if_neg hw]
          exact Nat.succ_lt_succ (ih w h)

/-! ### Unfolding and induction for the wavefront loop -/

theorem schedLoop_stuck (behav : Behav) (P : List (Nat × AgentStep))
    (C : List (Nat × AgentExecution)) (h : readyOf C P = []) :
    schedLoop behav P C = (C, []) := by
  rw [schedLoop]
  simp [h]

theorem schedLoop_go (behav : Behav) (P : List (Nat × AgentStep))
    (C : List (Nat × AgentExecution)) (h : readyOf C P ≠ []) :
    schedLoop behav P C =
      ((schedLoop behav (remainingOf C P)
          (C ++ waveRecords behav C (readyOf C P))).1,
       keysOf (readyOf C P)
         :: (schedLoop behav (remainingOf C P)
          (C ++ waveRecords behav C (readyOf C P))).2) := by
  rw [schedLoop]
  simp [h]

theorem schedLoop_elim (behav : Behav)
    (motive : List (Nat × AgentStep) → List (Nat × AgentExecution) → Prop)
    (stuck : ∀ P C, readyOf C P = [] → motive P C)
    (go : ∀ P C, readyOf C P ≠ [] →
        motive (remainingOf C P) (C ++ waveRecords behav C (readyOf C P)) →
        motive P C) :
    ∀ P C, motive P C := by
  have key : ∀ (n : Nat) (P : List (Nat × AgentStep)), P.length ≤ n →
      ∀ C, motive P C := by
    intro n
    induction n with
    | zero =>
      intro P hP C
      have hnil : P = [] := List.eq_nil_of_length_eq_zero (Nat.le_zero.mp hP)
      subst hnil
      exact stuck [] C rfl
    | succ n ih =>
      intro P hP C
      by_cases h : readyOf C P = []
      · exact stuck P C h
      · refine go P C h (ih _ ?_ _)
        exact Nat.lt_succ_iff.mp
          (Nat.lt_of_lt_of_le (length_filter_not_lt _ _ h) hP)
  exact fun P C => key P.length P (le_refl _) C

/-! ### Wave-structure lemmas -/

/-- The loop only appends records; the new keys are exactly the ids of the
trace's waves. -/
theorem sched_extends (behav : Behav) :
    ∀ (P : List (Nat × AgentStep)) (C : List (Nat × AgentExecution)),
    ∃ ext, (schedLoop behav P C).1 = C ++ ext
      ∧ keysOf ext = (schedLoop behav P C).2.flatten := by
  refine schedLoop_elim behav _ ?_ ?_
  · intro P C h
    rw [schedLoop_stuck behav P C h]
    exact ⟨[], by simp [keysOf]⟩
  · intro P C h ih
    rw [schedLoop_go behav P C h]
    obtain ⟨ext, h1, h2⟩ := ih
    refine ⟨waveRecords behav C (readyOf C P) ++ ext, ?_, ?_⟩
    · rw [h1, List.append_assoc]
    · simp [keysOf_append, keysOf_waveRecords, h2]

/-- Every id dispatched in some wave was pending. -/
theorem sched_pending_of_flatten (behav : Behav) :
    ∀ (P : List (Nat × AgentStep)) (C : List (Nat × AgentExecution)),
    ∀ i ∈ (schedLoop behav P C).2.flatten, i ∈ keysOf P := by
  refine schedLoop_elim behav _ ?_ ?_
  · intro P C h i hi
    rw [schedLoop_stuck _ _ _ h] at hi
    simp at hi
  · intro P C h ih i hi
    rw [schedLoop_go _ _ _ h] at hi
    simp only [List.flatten_cons, List.mem_append] at hi
    rcases hi with hi | hi
    · exact mem_keysOf_filter _ _ _ hi
    · exact mem_keysOf_filter _ _ _ (ih i hi)

/-- Every step dispatched in wave `w` was pending and had all its
dependencies inside the table the wave started from: the incoming completed
keys plus the ids of the earlier waves. -/
theorem sched_wave_deps (behav : Behav) :
    ∀ (P : List (Nat × AgentStep)) (C : List (Nat × AgentExecution)),
    ∀ w i, i ∈ (schedLoop behav P C).2.getD w [] →
    ∃ s, (i, s) ∈ P ∧ ∀ j ∈ s.dependencies,
      j ∈ keysOf C ++ ((schedLoop behav P C).2.take w).flatten := by
  refine schedLoop_elim behav _ ?_ ?_
  · intro P C h w i hi
    rw [schedLoop_stuck _ _ _ h] at hi
    cases w <;> simp at hi
  · intro P C h ih w i hi
    rw [schedLoop_go _ _ _ h] at hi ⊢
    cases w with
    | zero =>
      simp only [List.getD_cons_zero] at hi
      simp only [keysOf, List.mem_map] at hi
      obtain ⟨p, hp, rfl⟩ := hi
      have hpP : p ∈ P := List.mem_of_mem_filter hp
      have hdep : depsSatisfied C p.2 = true := by
        simpa using List.of_mem_filter
          (show p ∈ List.filter (fun q => depsSatisfied C q.2) P from hp)
      refine ⟨p.2, hpP, ?_⟩
      intro j hj
      simp only [depsSatisfied, List.all_eq_true] at hdep
      have hs := hdep j hj
      rw [lookupK_isSome_iff] at hs
      simpa using hs
    | succ w =>
      simp only [List.getD_cons_succ] at hi
      obtain ⟨s, hsP, hdeps⟩ := ih w i hi
      refine ⟨s, List.mem_of_mem_filter hsP, ?_⟩
      intro j hj
      have hm := hdeps j hj
      rw [keysOf_append, keysOf_waveRecords] at hm
      simp only [List.take_succ_cons, List.flatten_cons, List.mem_append] at hm ⊢
      tauto

/-- Every step dispatched in wave `w + 1` was not ready at wave `w`: some
dependency was still outside the table wave `w` started from. -/
theorem sched_wave_fresh (behav : Behav) :
    ∀ (P : List (Nat × AgentStep)) (C : List (Nat × AgentExecution)),
    ∀ w i, i ∈ (schedLoop behav P C).2.getD (w + 1) [] →
    ∃ s, (i, s) ∈ P ∧ ∃ j ∈ s.dependencies,
      ¬ (j ∈ keysOf C ++ ((schedLoop behav P C).2.take w).flatten) := by
  refine schedLoop_elim behav _ ?_ ?_
  · intro P C h w i hi
    rw [schedLoop_stuck _ _ _ h] at hi
    simp at hi
  · intro P C h ih w i hi
    rw [schedLoop_go _ _ _ h] at hi ⊢
    simp only [List.getD_cons_succ] at hi
    cases w with
    | zero =>
      have hfl := mem_getD_flatten _ _ _ hi
      have hrem : i ∈ keysOf (remainingOf C P) :=
        sched_pending_of_flatten behav _ _ i hfl
      simp only [keysOf, List.mem_map] at hrem
      obtain ⟨p, hp, rfl⟩ := hrem
      have hpP : p ∈ P := List.mem_of_mem_filter hp
      have hdep : (!(depsSatisfied C p.2)) = true := by
        simpa using List.of_mem_filter
          (show p ∈ List.filter (fun q => !(depsSatisfied C q.2)) P from hp)
      rw [Bool.not_eq_true'] at hdep
      have hnotall : ¬ (depsSatisfied C p.2 = true) := by simp [hdep]
      simp only [depsSatisfied, List.all_eq_true] at hnotall
      push_neg at hnotall
      obtain ⟨j, hj, hlook⟩ := hnotall
      refine ⟨p.2, hpP, j, hj, ?_⟩
      simp only [List.take_zero, List.flatten_nil, List.append_nil]
      rw [← lookupK_isSome_iff]
      exact hlook
    | succ w =>
      obtain ⟨s, hsP, j, hj, hnot⟩ := ih w i hi
      refine ⟨s, List.mem_of_mem_filter hsP, j, hj, ?_⟩
      intro hmem
      apply hnot
      rw [keysOf_append, keysOf_waveRecords]
      simp only [List.take_succ_cons, List.flatten_cons, List.mem_append] at hmem ⊢
      tauto

/-- Every wave of the trace dispatches at least one step. -/
theorem sched_wave_nonempty (behav : Behav) :
    ∀ (P : List (Nat × AgentStep)) (C : List (Nat × AgentExecution)),
    ∀ w, w < (schedLoop behav P C).2.length →
      (schedLoop behav P C).2.getD w [] ≠ [] := by
  refine schedLoop_elim behav _ ?_ ?_
  · intro P C h w hw
    rw [schedLoop_stuck _ _ _ h] at hw
    simp at hw
  · intro P C h ih w hw
    rw [schedLoop_go _ _ _ h] at hw ⊢
    cases w with
    | zero =>
      simp only [List.getD_cons_zero]
      simp only [keysOf, ne_eq, List.map_eq_nil_iff]
      exact h
    | succ w =>
      simp only [List.length_cons] at hw
      simp only [List.getD_cons_succ]
      exact ih w (Nat.lt_of_succ_lt_succ hw)

/-- Provenance of every record in the final table: either it was already
completed on entry, or it is the record `execute_step` produced for a
pending step against some intermediate completed table. -/
theorem sched_record_src (behav : Behav) :
    ∀ (P : List (Nat × AgentStep)) (C : List (Nat × AgentExecution)),
    ∀ i e, lookupK (schedLoop behav P C).1 i = some e →
      lookupK C i = some e
      ∨ ∃ s mid, (i, s) ∈ P ∧ e = executeStep behav mid s := by
  refine schedLoop_elim behav _ ?_ ?_
  · intro P C h i e he
    rw [schedLoop_stuck _ _ _ h] at he
    exact Or.inl he
  · intro P C h ih i e he
    rw [schedLoop_go _ _ _ h] at he
    rcases ih i e he with hL | ⟨s, mid, hmem, hrec⟩
    · cases hC : lookupK C i with
      | some e' =>
        have hall := lookupK_append_left C (waveRecords behav C (readyOf C P)) i e' hC
        rw [hall] at hL
        injection hL with he
        subst he
        exact Or.inl rfl
      | none =>
        rw [lookupK_append_right _ _ _ hC] at hL
        have hmem := lookupK_mem _ _ _ hL
        simp only [waveRecords, List.mem_map] at hmem
        obtain ⟨p, hp, hpe⟩ := hmem
        obtain ⟨h1, h2⟩ := Prod.mk.injEq .. ▸ hpe
        refine Or.inr ⟨p.2, C, ?_, h2.symm⟩
        rw [← h1]
        exact List.mem_of_mem_filter hp
    · exact Or.inr ⟨s, mid, List.mem_of_mem_filter hmem, hrec⟩

/-- Every non-empty list has a member minimizing a natural-valued image. -/
theorem list_exists_min_image {α : Type} (l : List α) (f : α → Nat) (h : l ≠ []) :
    ∃ a ∈ l, ∀ b ∈ l, f a ≤ f b := by
  induction l with
  | nil => exact absurd rfl h
  | cons x t ih =>
    cases ht : t with
    | nil =>
      refine ⟨x, List.mem_cons_self x _, ?_⟩
      intro b hb
      subst ht
      simp at hb
      subst hb
      exact le_refl _
    | cons y u =>
      subst ht
      obtain ⟨a, ha, hmin⟩ := ih (by simp)
      by_cases hc : f x ≤ f a
      · refine ⟨x, List.mem_cons_self x _, ?_⟩
        intro b hb
        rcases List.mem_cons.mp hb with rfl | hb
        · exact le_refl _
        · exact le_trans hc (hmin b hb)
      · refine ⟨a, List.mem_cons_of_mem _ ha, ?_⟩
        intro b hb
        rcases List.mem_cons.mp hb with rfl | hb
        · omega
        · exact hmin b hb

/-- Completion: when every pending dependency is closed under the pending and
completed keys and admits a strictly descending rank (a topological order),
the loop never gets stuck, so every pending id is dispatched in some wave. -/
theorem sched_complete (behav : Behav) (rank : Nat → Nat) :
    ∀ (P : List (Nat × AgentStep)) (C : List (Nat × AgentExecution)),
    (keysOf P).Nodup →
    (∀ i ∈ keysOf P, i ∉ keysOf C) →
    (∀ p ∈ P, ∀ j ∈ (Prod.snd p).dependencies, j ∈ keysOf C ∨ j ∈ keysOf P) →
    (∀ p ∈ P, ∀ j ∈ (Prod.snd p).dependencies, rank j < rank (Prod.fst p)) →
    ∀ i ∈ keysOf P, i ∈ (schedLoop behav P C).2.flatten := by
  refine schedLoop_elim behav _ ?_ ?_
  · intro P C h hnd hdis hclo hrank i hiP
    exfalso
    have hPne : P ≠ [] := by
      intro hnil
      rw [hnil] at hiP
      simp [keysOf] at hiP
    obtain ⟨p0, hp0, hmin⟩ := list_exists_min_image P (fun q => rank q.1) hPne
    have hall : ∀ p ∈ P, ¬(depsSatisfied C p.2 = true) := by
      intro p hp hsat
      have : p ∈ readyOf C P := List.mem_filter.mpr ⟨hp, hsat⟩
      rw [h] at this
      simp at this
    have hdep0 : ¬ (depsSatisfied C p0.2 = true) := hall p0 hp0
    simp only [depsSatisfied, List.all_eq_true] at hdep0
    push_neg at hdep0
    obtain ⟨j, hj, hlook⟩ := hdep0
    rcases hclo p0 hp0 j hj with hjC | hjP
    · rw [← lookupK_isSome_iff] at hjC
      exact hlook hjC
    · simp only [keysOf, List.mem_map] at hjP
      obtain ⟨q, hq, hq1⟩ := hjP
      have h1 := hrank p0 hp0 j hj
      have h2 := hmin q hq
      rw [hq1] at h2
      omega
  · intro P C h ih hnd hdis hclo hrank i hiP
    rw [schedLoop_go _ _ _ h]
    simp only [List.flatten_cons, List.mem_append]
    simp only [keysOf, List.mem_map] at hiP
    obtain ⟨p, hpmem, rfl⟩ := hiP
    by_cases hd : depsSatisfied C p.2 = true
    · left
      have : p ∈ readyOf C P := List.mem_filter.mpr ⟨hpmem, hd⟩
      simp only [keysOf, List.mem_map]
      exact ⟨p, this, rfl⟩
    · right
      have hdf : (!(depsSatisfied C p.2)) = true := by
        rw [Bool.not_eq_true']
        exact Bool.not_eq_true _ ▸ hd
      have hprem : p ∈ remainingOf C P := List.mem_filter.mpr ⟨hpmem, hdf⟩
      refine ih ?_ ?_ ?_ ?_ p.1 ?_
      · exact List.Nodup.sublist
          (List.Sublist.map _ (List.filter_sublist _)) hnd
      · intro x hx
        rw [keysOf_append, keysOf_waveRecords]
        simp only [List.mem_append]
        push_neg
        constructor
        · exact hdis x (mem_keysOf_filter _ _ _ hx)
        · intro hxr
          simp only [keysOf, List.mem_map] at hx hxr
          obtain ⟨q, hq, hq1⟩ := hx
          obtain ⟨q', hq', hq1'⟩ := hxr
          have heq : q = q' := nodup_keys_eq P hnd q q'
            (List.mem_of_mem_filter hq) (List.mem_of_mem_filter hq')
            (by rw [hq1, hq1'])
          have hb : (!(depsSatisfied C q.2)) = true := by
            simpa using List.of_mem_filter
              (show q ∈ List.filter (fun r => !(depsSatisfied C r.2)) P from hq)
          have hb' : depsSatisfied C q'.2 = true := by
            simpa using List.of_mem_filter
              (show q' ∈ List.filter (fun r => depsSatisfied C r.2) P from hq')
          rw [heq, hb'] at hb
          simp at hb
      · intro p' hp' j hj
        rcases hclo p' (List.mem_of_mem_filter hp') j hj with hjC | hjP
        · left
          rw [keysOf_append]
          exact List.mem_append_left _ hjC
        · simp only [keysOf, List.mem_map] at hjP
          obtain ⟨q, hq, hq1⟩ := hjP
          by_cases hdq : depsSatisfied C q.2 = true
          · left
            rw [keysOf_append, keysOf_waveRecords]
            refine List.mem_append_right _ ?_
            simp only [keysOf, List.mem_map]
            exact ⟨q, List.mem_filter.mpr ⟨hq, hdq⟩, hq1⟩
          · right
            have hdf' : (!(depsSatisfied C q.2)) = true := by
              rw [Bool.not_eq_true']
              exact Bool.not_eq_true _ ▸ hdq
            simp only [keysOf, List.mem_map]
            exact ⟨q, List.mem_filter.mpr ⟨hq, hdf'⟩, hq1⟩
      · intro p' hp' j hj
        exact hrank p' (List.mem_of_mem_filter hp') j hj
      · simp only [keysOf, List.mem_map]
        exact ⟨p, hprem, rfl⟩

/-! ### Plans as graphs: validity, chains -/

/-- The dependency ids of step `i` of a plan. -/
def depsOf (steps : List AgentStep) (i : Nat) : List Nat :=
  match steps[i]? with
  | some s => s.dependencies
  | none => []

/-- A satisfiable plan graph: every dependency id names a step of the plan,
and some rank decreases along dependencies (i.e. a topological order exists,
which is exactly acyclicity for a finite graph). -/
def ValidDag (steps : List AgentStep) : Prop :=
  (∀ i, i < steps.length → ∀ j ∈ depsOf steps i, j < steps.length) ∧
  (∃ rank : Nat → Nat, ∀ i, i < steps.length → ∀ j ∈ depsOf steps i, rank j < rank i)

/-- `Chain steps i k`: the plan has a dependency chain of `k` steps ending at
step `i` (each step of the chain is a dependency of the next). -/
inductive Chain (steps : List AgentStep) : Nat → Nat → Prop where
  | single (i : Nat) : i < steps.length → Chain steps i 1
  | cons (i j k : Nat) : i < steps.length → j ∈ depsOf steps i →
      Chain steps j k → Chain steps i (k + 1)

theorem enum_mem_lt (i : Nat) (s : AgentStep) (steps : List AgentStep)
    (h : (i, s) ∈ enumSteps 0 steps) : i < steps.length := by
  rw [mem_enumSteps] at h
  have := h.2
  simp only [Nat.sub_zero] at this
  exact (List.getElem?_eq_some_iff.mp this).1

theorem enum_mem_depsOf (i : Nat) (s : AgentStep) (steps : List AgentStep)
    (h : (i, s) ∈ enumSteps 0 steps) : depsOf steps i = s.dependencies := by
  rw [mem_enumSteps] at h
  have := h.2
  simp only [Nat.sub_zero] at this
  simp [depsOf, this]

/-! ### Aggregation lemmas -/

theorem collectRecords_some (c : List (Nat × AgentExecution)) (ids : List Nat)
    (h : ∀ i ∈ ids, ∃ e, lookupK c i = some e) :
    ∃ l, collectRecords c ids = some l := by
  induction ids with
  | nil => exact ⟨[], rfl⟩
  | cons i rest ih =>
    obtain ⟨e, he⟩ := h i (List.mem_cons_self i rest)
    obtain ⟨l, hl⟩ := ih (fun j hj => h j (List.mem_cons_of_mem i hj))
    exact ⟨e :: l, by simp [collectRecords, he, hl]⟩

theorem collectRecords_at (c : List (Nat × AgentExecution)) (ids : List Nat)
    (l : List AgentExecution) (h : collectRecords c ids = some l) :
    l.length = ids.length ∧
    ∀ (k i : Nat), ids[k]? = some i →
      ∃ e, l[k]? = some e ∧ lookupK c i = some e := by
  induction ids generalizing l with
  | nil =>
    simp only [collectRecords] at h
    cases h
    simp
  | cons i rest ih =>
    simp only [collectRecords] at h
    cases hli : lookupK c i with
    | none => rw [hli] at h; simp at h
    | some e =>
      rw [hli] at h
      cases hcr : collectRecords c rest with
      | none => rw [hcr] at h; simp at h
      | some tl =>
        rw [hcr] at h
        simp only [Option.some.injEq] at h
        subst h
        obtain ⟨hlen, hat⟩ := ih tl hcr
        refine ⟨by simp [hlen], ?_⟩
        intro k x hk
        cases k with
        | zero =>
          simp at hk
          subst hk
          exact ⟨e, by simp, hli⟩
        | succ k =>
          simp only [List.getElem?_cons_succ] at hk ⊢
          exact hat k x hk

/-! ### Bridge: the whole-run function and plan validity -/

/-- A run that returns a result certifies that the plan graph was
satisfiable: every step ran in some wave, each wave only after all its
dependencies, so the wave indices are a topological rank. -/
theorem exec_some_validDag (behav : Behav) (steps : List AgentStep)
    (r : TaskResult) (h : execute_dynamic_task behav steps = some r) :
    ValidDag steps := by
  simp only [execute_dynamic_task] at h
  cases hc : collectRecords (schedLoop behav (enumSteps 0 steps) []).1
      (List.range steps.length) with
  | none => rw [hc] at h; cases h
  | some recs =>
    rw [hc] at h
    obtain ⟨hlen, hat⟩ := collectRecords_at _ _ _ hc
    have hflat : ∀ i, i < steps.length →
        i ∈ (schedLoop behav (enumSteps 0 steps) []).2.flatten := by
      intro i hi
      have hrg : (List.range steps.length)[i]? = some i := by
        simp [List.getElem?_range, hi]
      obtain ⟨e, _, hle⟩ := hat i i hrg
      have hkey : i ∈ keysOf (schedLoop behav (enumSteps 0 steps) []).1 := by
        rw [← lookupK_isSome_iff, hle]
        rfl
      obtain ⟨ext, h1, h2⟩ := sched_extends behav (enumSteps 0 steps) []
      rw [h1] at hkey
      simpa [h2] using hkey
    have hkeyfact : ∀ i, i < steps.length → ∀ j ∈ depsOf steps i,
        j ∈ ((schedLoop behav (enumSteps 0 steps) []).2.take
          (waveIdx (schedLoop behav (enumSteps 0 steps) []).2 i)).flatten := by
      intro i hi j hj
      obtain ⟨hgd, _⟩ := waveIdx_mem _ i (hflat i hi)
      obtain ⟨s, hsmem, hdeps⟩ := sched_wave_deps behav (enumSteps 0 steps) [] _ i hgd
      have hde := enum_mem_depsOf i s steps hsmem
      rw [hde] at hj
      have := hdeps j hj
      simpa [keysOf] using this
    constructor
    · intro i hi j hj
      have hjt := mem_flatten_take _ _ _ (hkeyfact i hi j hj)
      have := sched_pending_of_flatten behav (enumSteps 0 steps) [] j hjt
      exact (mem_keysOf_enumSteps j steps).mp this
    · refine ⟨fun i => waveIdx (schedLoop behav (enumSteps 0 steps) []).2 i, ?_⟩
      intro i hi j hj
      exact waveIdx_take_lt _ _ _ (hkeyfact i hi j hj)

/-- A satisfiable plan graph is fully dispatched: every step id appears in
the wave trace. -/
theorem validDag_complete (behav : Behav) (steps : List AgentStep)
    (h : ValidDag steps) :
    ∀ i, i < steps.length →
      i ∈ (schedLoop behav (enumSteps 0 steps) []).2.flatten := by
  obtain ⟨hV1, rank, hrank⟩ := h
  intro i hi
  refine sched_complete behav rank (enumSteps 0 steps) [] ?_ ?_ ?_ ?_ i
    ((mem_keysOf_enumSteps i steps).mpr hi)
  · rw [keysOf_enumSteps]
    exact List.nodup_range' _ _
  · intro x _
    simp [keysOf]
  · intro p hp j hj
    right
    have hlt := enum_mem_lt p.1 p.2 steps hp
    have hde := enum_mem_depsOf p.1 p.2 steps hp
    rw [← hde] at hj
    exact (mem_keysOf_enumSteps j steps).mpr (hV1 p.1 hlt j hj)
  · intro p hp j hj
    have hlt := enum_mem_lt p.1 p.2 steps hp
    have hde := enum_mem_depsOf p.1 p.2 steps hp
    rw [← hde] at hj
    exact hrank p.1 hlt j hj

/-- A satisfiable plan graph yields a result (the aggregation finds every
record). -/
theorem validDag_some (behav : Behav) (steps : List AgentStep)
    (h : ValidDag steps) :
    ∃ recs, collectRecords (schedLoop behav (enumSteps 0 steps) []).1
        (List.range steps.length) = some recs
      ∧ execute_dynamic_task behav steps
          = some ⟨plannerSummary steps, recs, combineResults recs⟩ := by
  have hcoll : ∀ i ∈ List.range steps.length,
      ∃ e, lookupK (schedLoop behav (enumSteps 0 steps) []).1 i = some e := by
    intro i hi
    rw [List.mem_range] at hi
    have hfl := validDag_complete behav steps h i hi
    obtain ⟨ext, h1, h2⟩ := sched_extends behav (enumSteps 0 steps) []
    have hkey : i ∈ keysOf (schedLoop behav (enumSteps 0 steps) []).1 := by
      rw [h1]
      simpa [h2] using hfl
    rw [← lookupK_isSome_iff] at hkey
    exact Option.isSome_iff_exists.mp hkey
  obtain ⟨recs, hrecs⟩ := collectRecords_some _ _ hcoll
  refine ⟨recs, hrecs, ?_⟩
  simp only [execute_dynamic_task, hrecs]

/-- Field-level description of a successful run: the summary and combined
string are computed from the record table, and the record at position `k` is
the record `execute_step` built for step `k` — original agent name and
original task text. -/
theorem exec_some_records (behav : Behav) (steps : List AgentStep)
    (r : TaskResult) (h : execute_dynamic_task behav steps = some r) :
    r.planner_decision_summary = plannerSummary steps ∧
    r.final_result = combineResults r.agent_executions ∧
    r.agent_executions.length = steps.length ∧
    ∀ (k : Nat) (s : AgentStep), steps[k]? = some s →
      ∃ e, r.agent_executions[k]? = some e ∧ ∃ mid, e = executeStep behav mid s := by
  simp only [execute_dynamic_task] at h
  cases hc : collectRecords (schedLoop behav (enumSteps 0 steps) []).1
      (List.range steps.length) with
  | none => rw [hc] at h; cases h
  | some recs =>
    rw [hc] at h
    simp only [Option.some.injEq] at h
    subst h
    obtain ⟨hlen, hat⟩ := collectRecords_at _ _ _ hc
    refine ⟨rfl, rfl, by simpa using hlen, ?_⟩
    intro k s hk
    have hklt : k < steps.length := (List.getElem?_eq_some_iff.mp hk).1
    have hrg : (List.range steps.length)[k]? = some k := by
      simp [List.getElem?_range, hklt]
    obtain ⟨e, hre, hle⟩ := hat k k hrg
    refine ⟨e, hre, ?_⟩
    rcases sched_record_src behav (enumSteps 0 steps) [] k e hle with hnil | hsrc
    · simp [lookupK] at hnil
    · obtain ⟨s', mid, hmem, hrec⟩ := hsrc
      have : steps[k]? = some s' := by
        rw [mem_enumSteps] at hmem
        simpa using hmem.2
      rw [hk] at this
      injection this with hss
      subst hss
      exact ⟨mid, hrec⟩

/-! ### Concrete plans, behaviours and runs -/

/-- An agent behaviour returning a fixed non-empty output and no error. -/
def behavConst : Behav := fun _ _ => ("ok", "")

/-- An agent behaviour echoing the dispatched task as its output. -/
def behavEcho : Behav := fun _ t => (t, "")

/-- An agent behaviour returning an empty output and no error. -/
def behavEmpty : Behav := fun _ _ => ("", "")

/-- A two-step plan whose steps depend on each other (a cycle). -/
def stepsCycle : List AgentStep := [⟨"math", "a", [1]⟩, ⟨"math", "b", [0]⟩]

/-- Steps `[A (no deps), B (no deps), C (deps [1, 0])]`, the dependent step
listing its dependencies out of ascending order. -/
def stepsOrder : List AgentStep :=
  [⟨"math", "A", []⟩, ⟨"string", "B", []⟩, ⟨"code", "C", [1, 0]⟩]

/-- A one-step plan. -/
def stepsOne : List AgentStep := [⟨"math", "t", []⟩]

/-- A two-step plan whose second step names an unknown agent. -/
def stepsUnknown : List AgentStep := [⟨"math", "A", []⟩, ⟨"oracle", "B", []⟩]

def recA : AgentExecution := ⟨"math", "A", "A", ""⟩
def recB : AgentExecution := ⟨"string", "B", "B", ""⟩

/-- The context block the third step of `stepsOrder` receives: dependency 1
first, dependency 0 second — the listed order. -/
def ctxC : String :=
  "Context from previous steps:\nStep 1 (string): B\nStep 0 (math): A\n\nYour task: C"

def recC : AgentExecution := ⟨"code", "C", ctxC, ""⟩

def tableAB : List (Nat × AgentExecution) := [(0, recA), (1, recB)]

theorem run_stepsOrder_loop :
    schedLoop behavEcho (enumSteps 0 stepsOrder) []
      = ([(0, recA), (1, recB), (2, recC)], [[0, 1], [2]]) := by
  have hr1 : readyOf [] (enumSteps 0 stepsOrder) ≠ [] := by decide
  rw [schedLoop_go _ _ _ hr1]
  have e1 : remainingOf [] (enumSteps 0 stepsOrder)
      = [(2, ⟨"code", "C", [1, 0]⟩)] := by decide
  have e2 : ([] : List (Nat × AgentExecution))
        ++ waveRecords behavEcho [] (readyOf [] (enumSteps 0 stepsOrder))
      = tableAB := by decide
  rw [e1, e2]
  have hr2 : readyOf tableAB [(2, (⟨"code", "C", [1, 0]⟩ : AgentStep))] ≠ [] := by
    decide
  rw [schedLoop_go _ _ _ hr2]
  have e3 : remainingOf tableAB [(2, (⟨"code", "C", [1, 0]⟩ : AgentStep))] = [] := by
    decide
  have e4 : tableAB ++ waveRecords behavEcho tableAB
        (readyOf tableAB [(2, (⟨"code", "C", [1, 0]⟩ : AgentStep))])
      = [(0, recA), (1, recB), (2, recC)] := by decide
  rw [e3, e4]
  rw [schedLoop_stuck _ _ _ (by decide)]
  decide

/-- The full `stepsOrder` run under the echoing behaviour. -/
theorem run_stepsOrder :
    execute_dynamic_task behavEcho stepsOrder
      = some ⟨"3 step(s): math, string, code", [recA, recB, recC],
          "math: A | string: B | code: " ++ ctxC⟩ := by
  simp only [execute_dynamic_task, run_stepsOrder_loop]
  decide

theorem run_stepsOne_loop :
    schedLoop behavEmpty (enumSteps 0 stepsOne) []
      = ([(0, ⟨"math", "t", "", ""⟩)], [[0]]) := by
  have hr1 : readyOf [] (enumSteps 0 stepsOne) ≠ [] := by decide
  rw [schedLoop_go _ _ _ hr1]
  have e1 : remainingOf [] (enumSteps 0 stepsOne) = [] := by decide
  have e2 : ([] : List (Nat × AgentExecution))
        ++ waveRecords behavEmpty [] (readyOf [] (enumSteps 0 stepsOne))
      = [(0, ⟨"math", "t", "", ""⟩)] := by decide
  rw [e1, e2]
  rw [schedLoop_stuck _ _ _ (by decide)]
  decide

/-- The one-step run whose worker answers with empty output and no error. -/
theorem run_stepsOne :
    execute_dynamic_task behavEmpty stepsOne
      = some ⟨"1 step(s): math", [⟨"math", "t", "", ""⟩], "No results"⟩ := by
  simp only [execute_dynamic_task, run_stepsOne_loop]
  decide

/-! ### Scheduler claims -/

/-- C1: for every plan whose dependency graph is unsatisfiable (no valid
ranking of the steps — a cycle — or a dependency id outside the plan), the
run fails as a whole: no `TaskResult` and hence no record table is ever
returned, regardless of the agents' behaviour.  (In the source, the loop
breaks on the empty ready set and the aggregation then dies on the missing
key; the failure is the spec's `GraphUnresolvable`.) -/
theorem claim_C1_graph_unresolvable (behav : Behav) (steps : List AgentStep)
    (h : ¬ ValidDag steps) : execute_dynamic_task behav steps = none := by
  cases hr : execute_dynamic_task behav steps with
  | none => rfl
  | some r => exact absurd (exec_some_validDag behav steps r hr) h

/-- C1 witness: the two-step cycle is unsatisfiable and its run returns
nothing. -/
theorem claim_C1_witness :
    ¬ ValidDag stepsCycle
    ∧ execute_dynamic_task behavConst stepsCycle = none := by
  have hnv : ¬ ValidDag stepsCycle := by
    rintro ⟨-, rank, hr⟩
    have h01 : rank 1 < rank 0 :=
      hr 0 (by decide) 1 (by decide)
    have h10 : rank 0 < rank 1 :=
      hr 1 (by decide) 0 (by decide)
    omega
  exact ⟨hnv, claim_C1_graph_unresolvable behavConst stepsCycle hnv⟩

/-- C9: every record of a finished run stores the original, unaugmented task
text of its step and the step's worker name unchanged, and the result table
has exactly one record per step, at the step's position. -/
theorem claim_C9_record_original_task (behav : Behav) (steps : List AgentStep)
    (r : TaskResult) (h : execute_dynamic_task behav steps = some r) :
    r.agent_executions.length = steps.length
    ∧ ∀ (k : Nat) (s : AgentStep), steps[k]? = some s →
        ∃ e, r.agent_executions[k]? = some e
          ∧ e.agent = s.agent ∧ e.task = s.task := by
  obtain ⟨-, -, hlen, hat⟩ := exec_some_records behav steps r h
  refine ⟨hlen, ?_⟩
  intro k s hk
  obtain ⟨e, hre, mid, hrec⟩ := hat k s hk
  subst hrec
  exact ⟨_, hre, rfl, rfl⟩

/-- C9 witness: in the `stepsOrder` run the third record keeps the original
task `"C"`, not the augmented effective task. -/
theorem claim_C9_witness :
    ∃ e, ([recA, recB, recC] :
        List AgentExecution)[2]? = some e
      ∧ e.agent = (⟨"code", "C", [1, 0]⟩ : AgentStep).agent
      ∧ e.task = (⟨"code", "C", [1, 0]⟩ : AgentStep).task :=
  (claim_C9_record_original_task behavEcho stepsOrder _ run_stepsOrder).2
    2 ⟨"code", "C", [1, 0]⟩ (by decide)

/-- C5: on a satisfiable plan containing a step with an unrecognized worker
name, the run still completes with one record per step; the unknown-worker
step's record has empty output and the error `"Unknown agent: <name>"` (the
spec's unknown-worker error), while every step with a known worker is
dispatched to its agent and records that agent's answer. -/
theorem claim_C5_unknown_worker (behav : Behav) (steps : List AgentStep)
    (hvd : ValidDag steps) :
    ∃ r, execute_dynamic_task behav steps = some r
      ∧ r.agent_executions.length = steps.length
      ∧ ∀ (k : Nat) (s : AgentStep), steps[k]? = some s →
          ∃ e, r.agent_executions[k]? = some e
            ∧ (s.agent ∉ knownAgents →
                e = ⟨s.agent, s.task, "", "Unknown agent: " ++ s.agent⟩)
            ∧ (s.agent ∈ knownAgents →
                ∃ t, e = ⟨s.agent, s.task, (behav s.agent t).1,
                  (behav s.agent t).2⟩) := by
  obtain ⟨recs, hrecs, hexec⟩ := validDag_some behav steps hvd
  obtain ⟨-, -, hlen, hat⟩ := exec_some_records behav steps _ hexec
  refine ⟨_, hexec, hlen, ?_⟩
  intro k s hk
  obtain ⟨e, hre, mid, hrec⟩ := hat k s hk
  subst hrec
  refine ⟨_, hre, ?_, ?_⟩
  · intro hunk
    simp [executeStep, hunk]
  · intro hkn
    exact ⟨effectiveTask mid s, by simp [executeStep, hkn]⟩

/-- C5 witness: the plan with the unrecognized `"oracle"` worker. -/
theorem claim_C5_witness :
    ∃ r, execute_dynamic_task behavConst stepsUnknown = some r
      ∧ r.agent_executions.length = stepsUnknown.length
      ∧ ∀ (k : Nat) (s : AgentStep), stepsUnknown[k]? = some s →
          ∃ e, r.agent_executions[k]? = some e
            ∧ (s.agent ∉ knownAgents →
                e = ⟨s.agent, s.task, "", "Unknown agent: " ++ s.agent⟩)
            ∧ (s.agent ∈ knownAgents →
                ∃ t, e = ⟨s.agent, s.task, (behavConst s.agent t).1,
                  (behavConst s.agent t).2⟩) := by
  refine claim_C5_unknown_worker behavConst stepsUnknown ⟨?_, ⟨fun i => i, ?_⟩⟩ <;>
  · intro i hi j hj
    rcases i with _ | _ | i
    · simp [depsOf, stepsUnknown] at hj
    · simp [depsOf, stepsUnknown] at hj
    · exfalso
      have hi' : i + 1 + 1 < 2 := by simpa [stepsUnknown] using hi
      omega

/-- C2 counterexample: a worker may answer with empty output and no error;
the corresponding record has no error, yet the combined string is the
placeholder `"No results"` instead of containing the record's
`"<worker>: <output>"` rendering (`"math: "`). -/
theorem claim_C2_counterexample :
    execute_dynamic_task behavEmpty stepsOne
      = some ⟨"1 step(s): math", [⟨"math", "t", "", ""⟩], "No results"⟩
    ∧ (⟨"math", "t", "", ""⟩ : AgentExecution).error = ""
    ∧ "No results" ≠ "math: " :=
  ⟨run_stepsOne, rfl, by decide⟩

/-- C2 amended: the combined string of a finished run is built from the
records in original step order — record `k` belongs to step `k` — by joining
`"<worker>: <output>"` for every record with a NON-EMPTY output and no
error, with the fixed separator, and is the placeholder when no record
qualifies. -/
theorem claim_C2_amended (behav : Behav) (steps : List AgentStep)
    (r : TaskResult) (h : execute_dynamic_task behav steps = some r) :
    r.final_result =
      (if finalResultsOf r.agent_executions = [] then "No results"
       else String.intercalate " | " (finalResultsOf r.agent_executions))
    ∧ finalResultsOf r.agent_executions
        = (r.agent_executions.filter
            (fun e => decide (e.result_summary ≠ "") && decide (e.error = ""))).map
            (fun e => e.agent ++ ": " ++ e.result_summary)
    ∧ r.agent_executions.length = steps.length
    ∧ ∀ (k : Nat) (s : AgentStep), steps[k]? = some s →
        ∃ e, r.agent_executions[k]? = some e
          ∧ e.agent = s.agent ∧ e.task = s.task := by
  obtain ⟨-, hfin, hlen, hat⟩ := exec_some_records behav steps r h
  refine ⟨?_, ?_, hlen, ?_⟩
  · rw [hfin, combineResults]
    by_cases he : finalResultsOf r.agent_executions = []
    · simp [he]
    · simp [he, List.isEmpty_iff]
  · rw [finalResultsOf]
    congr 1
    apply List.filter_congr
    intro e _
    by_cases h1 : e.result_summary = "" <;> by_cases h2 : e.error = "" <;>
      simp [h1, h2]
  · intro k s hk
    obtain ⟨e, hre, mid, hrec⟩ := hat k s hk
    subst hrec
    exact ⟨_, hre, rfl, rfl⟩

/-- C2 amended witness: the combined string of the `stepsOrder` run. -/
theorem claim_C2_amended_witness :
    ("math: A | string: B | code: " ++ ctxC) =
      (if finalResultsOf [recA, recB, recC] = [] then "No results"
       else String.intercalate " | " (finalResultsOf [recA, recB, recC])) :=
  (claim_C2_amended behavEcho stepsOrder _ run_stepsOrder).1

/-- C3 counterexample: the third step of `stepsOrder` lists its dependencies
as `[1, 0]`; its effective task (echoed into its record's output) renders
`Step 1` before `Step 0` — the listed order, not ascending dependency-id
order. -/
theorem claim_C3_counterexample :
    effectiveTask tableAB ⟨"code", "C", [1, 0]⟩ = ctxC
    ∧ execute_dynamic_task behavEcho stepsOrder
        = some ⟨"3 step(s): math, string, code", [recA, recB, recC],
            "math: A | string: B | code: " ++ ctxC⟩
    ∧ recC.result_summary = ctxC
    ∧ ctxC ≠ "Context from previous steps:\nStep 0 (math): A\nStep 1 (string): B\n\nYour task: C" :=
  ⟨by decide, run_stepsOrder, rfl, by decide⟩

/-- C3 amended: a dependent step's effective task prepends, under the
context header, the rendering `"Step <id> (<worker>): <output>"` of each
dependency's record, joined in the order the dependencies are LISTED in the
step (not sorted); it depends only on what the completed table stores for
those ids (so not on completion order), and it is exactly the text handed to
the worker; a step with no dependencies keeps its original task. -/
theorem claim_C3_amended (behav : Behav)
    (completed : List (Nat × AgentExecution)) (step : AgentStep) :
    (step.dependencies = [] → effectiveTask completed step = step.task)
    ∧ (step.dependencies ≠ [] →
        effectiveTask completed step
          = "Context from previous steps:\n"
            ++ String.intercalate "\n"
                (step.dependencies.map (renderDep completed))
            ++ "\n\nYour task: " ++ step.task)
    ∧ (∀ (d : Nat) (e : AgentExecution), lookupK completed d = some e →
        renderDep completed d
          = "Step " ++ toString d ++ " (" ++ e.agent ++ "): "
            ++ e.result_summary)
    ∧ (∀ completed' : List (Nat × AgentExecution),
        (∀ d ∈ step.dependencies, lookupK completed' d = lookupK completed d) →
        effectiveTask completed' step = effectiveTask completed step)
    ∧ executeStep behav completed step =
        ⟨step.agent, step.task,
         (if step.agent ∈ knownAgents
          then behav step.agent (effectiveTask completed step)
          else ("", "Unknown agent: " ++ step.agent)).1,
         (if step.agent ∈ knownAgents
          then behav step.agent (effectiveTask completed step)
          else ("", "Unknown agent: " ++ step.agent)).2⟩ := by
  refine ⟨?_, ?_, ?_, ?_, ?_⟩
  · intro he
    simp [effectiveTask, he]
  · intro hne
    rw [effectiveTask, if_neg]
    simpa [List.isEmpty_iff] using hne
  · intro d e he
    simp [renderDep, he]
  · intro completed' hls
    by_cases he : step.dependencies = []
    · simp [effectiveTask, he]
    · rw [effectiveTask, effectiveTask, if_neg, if_neg]
      · have hmap : step.dependencies.map (renderDep completed')
            = step.dependencies.map (renderDep completed) := by
          apply List.map_congr_left
          intro d hd
          simp [renderDep, hls d hd]
        rw [hmap]
      · simpa [List.isEmpty_iff] using he
      · simpa [List.isEmpty_iff] using he
  · by_cases hk : step.agent ∈ knownAgents <;> simp [executeStep, hk]

/-- C3 amended witness: the effective task of the `[1, 0]`-dependent step
over the completed table of its wave. -/
theorem claim_C3_amended_witness :
    effectiveTask tableAB ⟨"code", "C", [1, 0]⟩
      = "Context from previous steps:\n"
        ++ String.intercalate "\n"
            (([1, 0] : List Nat).map (renderDep tableAB))
        ++ "\n\nYour task: " ++ "C" :=
  (claim_C3_amended behavEcho tableAB ⟨"code", "C", [1, 0]⟩).2.1 (by decide)

/-! ### C8: waves and the height of the dependency DAG -/

theorem chain_lt (steps : List AgentStep) (i k : Nat) (h : Chain steps i k) :
    i < steps.length := by
  cases h <;> assumption

/-- Any chain ending at `i` is no longer than `i`'s wave index plus one. -/
theorem chain_le_waves (behav : Behav) (steps : List AgentStep)
    (hvd : ValidDag steps) :
    ∀ (i k : Nat), Chain steps i k →
      k ≤ waveIdx (schedLoop behav (enumSteps 0 steps) []).2 i + 1 := by
  intro i k h
  induction h with
  | single i hi => omega
  | cons i j k hi hdep hch ih =>
    have hfl := validDag_complete behav steps hvd i hi
    obtain ⟨hgd, hlen⟩ := waveIdx_mem _ i hfl
    obtain ⟨s, hsm, hdeps⟩ := sched_wave_deps behav (enumSteps 0 steps) [] _ i hgd
    have hdep' : j ∈ s.dependencies := by
      rw [← enum_mem_depsOf i s steps hsm]
      exact hdep
    have hj := hdeps j hdep'
    simp only [keysOf, List.map_nil, List.nil_append] at hj
    have hwj := waveIdx_take_lt _ _ _ hj
    omega

/-- Every step dispatched in wave `w` ends a dependency chain of `w + 1`
steps. -/
theorem wave_chain (behav : Behav) (steps : List AgentStep) :
    ∀ (w i : Nat), i ∈ (schedLoop behav (enumSteps 0 steps) []).2.getD w [] →
      Chain steps i (w + 1) := by
  intro w
  induction w with
  | zero =>
    intro i hi
    have hfl := mem_getD_flatten _ _ _ hi
    have hkey := sched_pending_of_flatten behav _ _ i hfl
    exact Chain.single i ((mem_keysOf_enumSteps i steps).mp hkey)
  | succ w ih =>
    intro i hi
    have hfl := mem_getD_flatten _ _ _ hi
    have hilt := (mem_keysOf_enumSteps i steps).mp
      (sched_pending_of_flatten behav _ _ i hfl)
    obtain ⟨s, hsm, j, hj, hnot⟩ :=
      sched_wave_fresh behav (enumSteps 0 steps) [] w i hi
    obtain ⟨s', hsm', hdeps⟩ :=
      sched_wave_deps behav (enumSteps 0 steps) [] (w + 1) i hi
    have hss : s = s' := enumSteps_functional i s s' steps hsm hsm'
    subst hss
    have hjmem := hdeps j hj
    simp only [keysOf, List.map_nil, List.nil_append] at hjmem hnot
    rcases mem_flatten_take_succ _ _ _ hjmem with hcase | hcase
    · exact absurd hcase hnot
    · refine Chain.cons i j (w + 1) hilt ?_ (ih j hcase)
      rw [enum_mem_depsOf i s steps hsm]
      exact hj

/-- C8: on a satisfiable plan the wavefront loop terminates with a result,
and the number of dispatching waves equals the length of the longest
dependency chain of the plan (no chain is longer, and some chain attains
it); in particular a non-empty plan with no dependency edges runs in exactly
one wave. -/
theorem claim_C8_waves_eq_height (behav : Behav) (steps : List AgentStep)
    (hvd : ValidDag steps) :
    (∃ r, execute_dynamic_task behav steps = some r)
    ∧ (∀ (i k : Nat), Chain steps i k → k ≤ schedWaves behav steps)
    ∧ (steps ≠ [] → ∃ i, Chain steps i (schedWaves behav steps))
    ∧ (steps ≠ [] → (∀ s ∈ steps, s.dependencies = []) →
        schedWaves behav steps = 1) := by
  have hupper : ∀ (i k : Nat), Chain steps i k → k ≤ schedWaves behav steps := by
    intro i k h
    have h1 := chain_le_waves behav steps hvd i k h
    have hi := chain_lt steps i k h
    have hfl := validDag_complete behav steps hvd i hi
    have h2 := (waveIdx_mem _ i hfl).2
    unfold schedWaves
    omega
  have hatt : steps ≠ [] → ∃ i, Chain steps i (schedWaves behav steps) := by
    intro hne
    have h0 : (0 : Nat) < steps.length := by
      cases steps with
      | nil => exact absurd rfl hne
      | cons a t => simp
    have hfl := validDag_complete behav steps hvd 0 h0
    have hTne : (schedLoop behav (enumSteps 0 steps) []).2.length ≠ 0 := by
      intro hz
      rw [List.length_eq_zero] at hz
      rw [hz] at hfl
      simp at hfl
    have hlt : (schedLoop behav (enumSteps 0 steps) []).2.length - 1
        < (schedLoop behav (enumSteps 0 steps) []).2.length := by omega
    have hwne := sched_wave_nonempty behav (enumSteps 0 steps) [] _ hlt
    obtain ⟨i, hi⟩ := List.exists_mem_of_ne_nil _ hwne
    have hch := wave_chain behav steps _ i hi
    refine ⟨i, ?_⟩
    have heq : (schedLoop behav (enumSteps 0 steps) []).2.length - 1 + 1
        = schedWaves behav steps := by
      unfold schedWaves
      omega
    rwa [heq] at hch
  refine ⟨?_, hupper, hatt, ?_⟩
  · obtain ⟨recs, -, hex⟩ := validDag_some behav steps hvd
    exact ⟨_, hex⟩
  · intro hne hzero
    obtain ⟨i, hch⟩ := hatt hne
    have hone : ∀ (i' k : Nat), Chain steps i' k → k = 1 := by
      intro i' k h
      induction h with
      | single _ _ => rfl
      | cons i' j k hi' hdep hch ih =>
        exfalso
        cases hg : steps[i']? with
        | none => simp [depsOf, hg] at hdep
        | some s =>
          have hs : s ∈ steps := List.getElem?_mem hg
          have hz := hzero s hs
          simp [depsOf, hg, hz] at hdep
    exact hone i _ hch

/-- C8 witness: the `stepsOrder` plan (height two). -/
theorem claim_C8_witness :
    (∃ r, execute_dynamic_task behavEcho stepsOrder = some r)
    ∧ (∀ (i k : Nat), Chain stepsOrder i k → k ≤ schedWaves behavEcho stepsOrder)
    ∧ (stepsOrder ≠ [] → ∃ i, Chain stepsOrder i (schedWaves behavEcho stepsOrder))
    ∧ (stepsOrder ≠ [] → (∀ s ∈ stepsOrder, s.dependencies = []) →
        schedWaves behavEcho stepsOrder = 1) := by
  refine claim_C8_waves_eq_height behavEcho stepsOrder ⟨?_, ?_⟩
  · intro i hi j hj
    rcases i with _ | _ | _ | i
    · simp [depsOf, stepsOrder] at hj
    · simp [depsOf, stepsOrder] at hj
    · have : j = 1 ∨ j = 0 := by simpa [depsOf, stepsOrder] using hj
      rcases this with rfl | rfl <;> simp [stepsOrder]
    · exfalso
      have hi' : i + 1 + 1 + 1 < 3 := by simpa [stepsOrder] using hi
      omega
  · refine ⟨fun i => if i = 2 then 1 else 0, ?_⟩
    intro i hi j hj
    rcases i with _ | _ | _ | i
    · simp [depsOf, stepsOrder] at hj
    · simp [depsOf, stepsOrder] at hj
    · have : j = 1 ∨ j = 0 := by simpa [depsOf, stepsOrder] using hj
      rcases this with rfl | rfl <;> norm_num
    · exfalso
      have hi' : i + 1 + 1 + 1 < 3 := by simpa [stepsOrder] using hi
      omega
